import Mathlib

/-!
Shallow embedding of the backup-sync repository's core data model and
operations, together with theorems settling the specification claims.

The embedding covers:
* the agent's chunked-transfer state machine (`src/agent/src/models/folder.rs`),
* the broker state and dispatch (`src/ws/src/state.rs`, `src/ws/src/handlers.rs`),
* `RelativePath::new` (`src/agent/src/models/relative_path.rs`),
* the local syncer's extra-in-backup reconciliation pass
  (`src/src/synchronizer.rs`).

File systems are modelled as association lists from paths to byte lists,
bytes as `Nat`, and the blake3 content hash as an arbitrary function
`Hsh : List Nat → Nat` threaded through the definitions (the code treats the
hash as an opaque value; no claim depends on a property of blake3 itself).
Machine integers are modelled as `Nat`; the one place where `u64` overflow is
reachable (the `index * chunk_size` offset computation in `handle_chunk`) uses
an explicit `% 2 ^ 64`.
-/

namespace BackupSync

/-! ## Association-list maps (model of `HashMap`) -/

/-- First-match lookup, the model of `HashMap::get`. -/
def alookup {α β : Type} [DecidableEq α] : List (α × β) → α → Option β
  | [], _ => none
  | (k, v) :: rest, key => if k = key then some v else alookup rest key

/-- Insert-or-replace, the model of `HashMap::insert`. -/
def ainsert {α β : Type} [DecidableEq α] (k : α) (v : β) : List (α × β) → List (α × β)
  | [] => [(k, v)]
  | (k', v') :: rest => if k' = k then (k, v) :: rest else (k', v') :: ainsert k v rest

/-- Key removal, the model of `HashMap::remove`. -/
def aremove {α β : Type} [DecidableEq α] (k : α) : List (α × β) → List (α × β)
  | [] => []
  | (k', v) :: rest => if k' = k then aremove k rest else (k', v) :: aremove k rest

/-- Set insertion on a duplicate-free list, the model of `HashSet::insert`. -/
def sinsert (x : Nat) (s : List Nat) : List Nat :=
  if x ∈ s then s else x :: s

theorem alookup_ainsert_self {α β : Type} [DecidableEq α] (k : α) (v : β)
    (l : List (α × β)) : alookup (ainsert k v l) k = some v := by
  induction l with
  | nil => simp [ainsert, alookup]
  | cons p rest ih =>
    obtain ⟨k', v'⟩ := p
    by_cases h : k' = k <;> simp [ainsert, alookup, h, ih]

theorem alookup_ainsert_ne {α β : Type} [DecidableEq α] (k k' : α) (v : β)
    (l : List (α × β)) (h : k' ≠ k) :
    alookup (ainsert k v l) k' = alookup l k' := by
  have hne : ¬ k = k' := fun h' => h h'.symm
  induction l with
  | nil => simp [ainsert, alookup, hne]
  | cons p rest ih =>
    obtain ⟨k₀, v₀⟩ := p
    by_cases h₀ : k₀ = k
    · subst h₀
      simp [ainsert, alookup, hne]
    · simp only [ainsert, if_neg h₀, alookup]
      by_cases h₁ : k₀ = k' <;> simp [h₁, ih]

theorem alookup_aremove_self {α β : Type} [DecidableEq α] (k : α)
    (l : List (α × β)) : alookup (aremove k l) k = none := by
  induction l with
  | nil => simp [aremove, alookup]
  | cons p rest ih =>
    obtain ⟨k', v'⟩ := p
    by_cases h : k' = k <;> simp [aremove, alookup, h, ih]

theorem alookup_aremove_ne {α β : Type} [DecidableEq α] (k k' : α)
    (l : List (α × β)) (h : k' ≠ k) :
    alookup (aremove k l) k' = alookup l k' := by
  have hne : ¬ k = k' := fun h' => h h'.symm
  induction l with
  | nil => simp [aremove, alookup]
  | cons p rest ih =>
    obtain ⟨k₀, v₀⟩ := p
    by_cases h₀ : k₀ = k
    · subst h₀
      simp [aremove, alookup, hne, ih]
    · by_cases h₁ : k₀ = k' <;> simp [aremove, alookup, h₀, h₁, ih, hne, h]

theorem ainsert_ainsert_self {α β : Type} [DecidableEq α] (k : α) (v w : β)
    (l : List (α × β)) : ainsert k v (ainsert k w l) = ainsert k v l := by
  induction l with
  | nil => simp [ainsert]
  | cons p rest ih =>
    obtain ⟨k', v'⟩ := p
    by_cases h : k' = k <;> simp [ainsert, h, ih]

/-! ## Chunked-transfer state machine (`Folder` in `folder.rs`)

Destination paths are `String`s, file contents `List Nat` (one `Nat` per
byte), transfer ids `Nat` (`u64` on the wire).  A `Folder`'s volatile state
is the transfer-state map, the per-transfer temp files, and the destination
tree rooted at the folder path. -/

/-- `2^64`, the wrap-around modulus of `u64` arithmetic. -/
def U64 : Nat := 2 ^ 64

/-- The stored `{path, hash, metadata}` of an `End` that arrived early
(`PendingEnd` in `folder.rs`; the metadata is not consulted by any claim and
is omitted). -/
structure PendingEnd where
  path : String
  hash : Nat
  deriving DecidableEq, Repr

/-- `TransferState` from `folder.rs`.  `received_chunks` is a `HashSet`,
modelled as a duplicate-free list. -/
structure TransferState where
  total_chunks : Nat
  chunk_size : Nat
  received_chunks : List Nat
  pending_end : Option PendingEnd
  deriving DecidableEq, Repr

/-- The volatile file-system-and-state view of one `Folder`: the
`transfer_states` map, the temp files `<tmp-root>/<folder-id>/<id>.tmp`
keyed by transfer id, and the destination tree keyed by resolved path. -/
structure FolderSt where
  states : List (Nat × TransferState)
  temps : List (Nat × List Nat)
  dest : List (String × List Nat)
  deriving DecidableEq, Repr

/-- Errors surfaced by the transfer handlers (`anyhow` errors in the code). -/
inductive TError where
  /-- `bail!("Hash mismatch: ...")` -/
  | hashMismatch
  /-- `"Transfer not started"` / `"Transfer state not found"` -/
  | notStarted
  /-- an I/O failure opening a missing temp file -/
  | ioMissing
  deriving DecidableEq, Repr

/-- Result of one handler call: `ok` and `err` model `Ok`/`Err` return
values; `crash` models a Rust panic (which unwinds, returning nothing). -/
inductive Outcome where
  | ok
  | err (e : TError)
  | crash
  deriving DecidableEq, Repr

/-- Writing `data` into a file's byte list at byte offset `off`, extending
the file when the write reaches past its end (`seek` + `write_all`). -/
def writeAt (c : List Nat) (off : Nat) (data : List Nat) : List Nat :=
  (List.range (max c.length (off + data.length))).map fun j =>
    if off ≤ j ∧ j < off + data.length then data.getD (j - off) 0 else c.getD j 0

/-- `Folder::handle_start`: recreate and preallocate the temp file, then
record a fresh `TransferState`.  `total_size.div_ceil(chunk_size)` panics
(division by zero) when `chunk_size = 0`, after the temp file was already
created. -/
def handle_start (fs : FolderSt) (id total_size chunk_size : Nat) :
    Outcome × FolderSt :=
  let fs1 : FolderSt := { fs with temps := ainsert id (List.replicate total_size 0) fs.temps }
  if chunk_size = 0 then (.crash, fs1)
  else
    (.ok, { fs1 with
      states := ainsert id
        { total_chunks := (total_size + chunk_size - 1) / chunk_size
          chunk_size := chunk_size
          received_chunks := []
          pending_end := none } fs1.states })

/-- `Folder::handle_end_internal`: recompute the temp file's hash; on
mismatch delete temp file and state and fail; otherwise rename the temp file
onto the destination and drop the state. -/
def handle_end_internal (Hsh : List Nat → Nat) (fs : FolderSt) (id : Nat)
    (path : String) (expected_hash : Nat) : Outcome × FolderSt :=
  match alookup fs.temps id with
  | none => (.err .ioMissing, fs)
  | some bytes =>
    if Hsh bytes ≠ expected_hash then
      (.err .hashMismatch,
        { fs with temps := aremove id fs.temps, states := aremove id fs.states })
    else
      (.ok,
        { states := aremove id fs.states
          temps := aremove id fs.temps
          dest := ainsert path bytes fs.dest })

/-- `Folder::handle_chunk`: write the chunk at `index * chunk_size`, insert
`index` into `received_chunks`, and commit if a pending `End` is present and
the transfer became complete. -/
def handle_chunk (Hsh : List Nat → Nat) (fs : FolderSt) (id index : Nat)
    (data : List Nat) : Outcome × FolderSt :=
  match alookup fs.states id with
  | none => (.err .notStarted, fs)
  | some st =>
    match alookup fs.temps id with
    | none => (.err .ioMissing, fs)
    | some bytes =>
      let offset := index * st.chunk_size % U64
      let fs1 : FolderSt := { fs with temps := ainsert id (writeAt bytes offset data) fs.temps }
      let st' : TransferState := { st with received_chunks := sinsert index st.received_chunks }
      let fs2 : FolderSt := { fs1 with states := ainsert id st' fs1.states }
      match st'.pending_end with
      | some pe =>
        if st'.received_chunks.length = st'.total_chunks then
          handle_end_internal Hsh fs2 id pe.path pe.hash
        else (.ok, fs2)
      | none => (.ok, fs2)

/-- `Folder::handle_end`: commit when all chunks are present, otherwise
store the pending `End` and report success. -/
def handle_end (Hsh : List Nat → Nat) (fs : FolderSt) (id : Nat)
    (path : String) (expected_hash : Nat) : Outcome × FolderSt :=
  match alookup fs.states id with
  | none => (.err .notStarted, fs)
  | some st =>
    if st.received_chunks.length = st.total_chunks then
      handle_end_internal Hsh fs id path expected_hash
    else
      (.ok, { fs with
        states := ainsert id
          { st with pending_end := some { path := path, hash := expected_hash } } fs.states })

/-- `ChunkedTransferOp::Abort`: remove the temp file and the state entry. -/
def handle_abort (fs : FolderSt) (id : Nat) : Outcome × FolderSt :=
  (.ok, { fs with temps := aremove id fs.temps, states := aremove id fs.states })

/-- `ChunkedTransferOp` from `protocol.rs` (the `End` metadata is dropped,
and the destination path is the already-resolved `String`). -/
inductive ChunkedTransferOp where
  | start (id total_size chunk_size : Nat)
  | chunk (id index : Nat) (data : List Nat)
  | endOp (id : Nat) (path : String) (hash : Nat)
  | abort (id : Nat)
  deriving DecidableEq, Repr

/-- `Folder::process_chunked_transfer`. -/
def process_chunked_transfer (Hsh : List Nat → Nat) (fs : FolderSt) :
    ChunkedTransferOp → Outcome × FolderSt
  | .start id total_size chunk_size => handle_start fs id total_size chunk_size
  | .chunk id index data => handle_chunk Hsh fs id index data
  | .endOp id path hash => handle_end Hsh fs id path hash
  | .abort id => handle_abort fs id

/-- Processing a sequence of transfer messages, keeping the folder state. -/
def runOps (Hsh : List Nat → Nat) (fs : FolderSt) (ops : List ChunkedTransferOp) :
    FolderSt :=
  ops.foldl (fun s op => (process_chunked_transfer Hsh s op).2) fs

/-! ### Byte-level lemmas about `writeAt` and `sinsert` -/

theorem getD_map_range (n : Nat) (f : Nat → Nat) (j : Nat) :
    ((List.range n).map f).getD j 0 = if j < n then f j else 0 := by
  by_cases h : j < n
  · simp [List.getD_eq_getElem?_getD, List.getElem?_map, List.getElem?_range, h]
  · have hlen : ((List.range n).map f).length ≤ j := by
      simpa using Nat.le_of_not_lt h
    simp [List.getD_eq_getElem?_getD, List.getElem?_eq_none hlen, h]

theorem length_writeAt (c : List Nat) (off : Nat) (d : List Nat) :
    (writeAt c off d).length = max c.length (off + d.length) := by
  simp [writeAt]

theorem getD_writeAt (c : List Nat) (off : Nat) (d : List Nat) (j : Nat) :
    (writeAt c off d).getD j 0 =
      if off ≤ j ∧ j < off + d.length then d.getD (j - off) 0 else c.getD j 0 := by
  rw [writeAt, getD_map_range]
  by_cases h : j < max c.length (off + d.length)
  · simp [h]
  · have h1 : ¬ (off ≤ j ∧ j < off + d.length) := by omega
    have h2 : c.length ≤ j := by omega
    simp [h, h1, List.getD_eq_getElem?_getD, List.getElem?_eq_none h2]

theorem writeAt_writeAt_self (c : List Nat) (off : Nat) (d : List Nat) :
    writeAt (writeAt c off d) off d = writeAt c off d := by
  conv_lhs => rw [writeAt]
  conv_rhs => rw [writeAt]
  rw [length_writeAt, Nat.max_assoc, Nat.max_self]
  refine List.map_congr_left fun j _ => ?_
  rw [getD_writeAt]
  by_cases h : off ≤ j ∧ j < off + d.length <;> simp [h]

theorem sinsert_mem_self (x : Nat) (s : List Nat) : x ∈ sinsert x s := by
  by_cases h : x ∈ s <;> simp [sinsert, h]

theorem sinsert_eq_of_mem {x : Nat} {s : List Nat} (h : x ∈ s) :
    sinsert x s = s := by
  simp [sinsert, h]

theorem mem_sinsert (y x : Nat) (s : List Nat) :
    y ∈ sinsert x s ↔ y = x ∨ y ∈ s := by
  by_cases h : x ∈ s
  · simp only [sinsert, if_pos h]
    constructor
    · exact fun hy => Or.inr hy
    · rintro (rfl | hy) <;> assumption
  · simp [sinsert, if_neg h]

theorem nodup_sinsert (x : Nat) (s : List Nat) (h : s.Nodup) :
    (sinsert x s).Nodup := by
  by_cases hx : x ∈ s <;> simp [sinsert, hx, h]

/-! ### Claim theorems for the chunked-transfer handlers -/

/-- C7 (counterexample): `handle_start` with `chunk_size = 0` panics — in
Rust, `total_size.div_ceil(0)` divides by zero — so the claim that
processing `Start` never panics for every `chunk_size` including `0` is
false. -/
theorem handle_start_chunk_size_zero_crashes :
    (handle_start ⟨[], [], []⟩ 1 0 0).1 = Outcome.crash := rfl

/-- C7 (amended): for every `chunk_size > 0`, `handle_start` returns `Ok`
(it never panics) and records a `TransferState` with
`total_chunks = ⌈total_size / chunk_size⌉`, an empty `received_chunks` set
and no `pending_end`. -/
theorem handle_start_ok_of_chunk_size_pos (fs : FolderSt)
    (id total_size chunk_size : Nat) (h : 0 < chunk_size) :
    (handle_start fs id total_size chunk_size).1 = Outcome.ok ∧
    alookup (handle_start fs id total_size chunk_size).2.states id =
      some { total_chunks := (total_size + chunk_size - 1) / chunk_size
             chunk_size := chunk_size
             received_chunks := []
             pending_end := none } := by
  have h0 : ¬ chunk_size = 0 := by omega
  exact ⟨by simp [handle_start, h0], by simp [handle_start, h0, alookup_ainsert_self]⟩

/-- Witness for the amended C7 theorem at `total_size = 13`,
`chunk_size = 5` (so `total_chunks = 3`). -/
theorem handle_start_ok_of_chunk_size_pos_witness :
    0 < 5 ∧
    ((handle_start ⟨[], [], []⟩ 1 13 5).1 = Outcome.ok ∧
     alookup (handle_start ⟨[], [], []⟩ 1 13 5).2.states 1 =
       some { total_chunks := (13 + 5 - 1) / 5
              chunk_size := 5
              received_chunks := []
              pending_end := none }) :=
  ⟨by decide, handle_start_ok_of_chunk_size_pos ⟨[], [], []⟩ 1 13 5 (by decide)⟩

/-- C2: if at commit time the temp file's recomputed hash differs from the
announced hash, `handle_end` fails with `HashMismatch`, the destination tree
is completely unchanged, and the temp file and the `TransferState` entry for
the id are removed. -/
theorem handle_end_hash_mismatch (Hsh : List Nat → Nat) (fs : FolderSt)
    (id : Nat) (path : String) (h : Nat) (st : TransferState) (bytes : List Nat)
    (hst : alookup fs.states id = some st)
    (hcomplete : st.received_chunks.length = st.total_chunks)
    (htemp : alookup fs.temps id = some bytes)
    (hhash : Hsh bytes ≠ h) :
    (handle_end Hsh fs id path h).1 = Outcome.err TError.hashMismatch ∧
    (handle_end Hsh fs id path h).2.dest = fs.dest ∧
    alookup (handle_end Hsh fs id path h).2.temps id = none ∧
    alookup (handle_end Hsh fs id path h).2.states id = none := by
  simp [handle_end, hst, hcomplete, handle_end_internal, htemp, hhash,
    alookup_aremove_self]

/-- Witness for the C2 theorem: a one-chunk transfer of `[42, 42, 42]`
announced with the wrong hash `99` (the hash model is `List.length`). -/
theorem handle_end_hash_mismatch_witness :
    (alookup (FolderSt.mk
        [(1, ⟨1, 5, [0], none⟩)] [(1, [42, 42, 42])] []).states 1 =
        some ⟨1, 5, [0], none⟩ ∧
     ([0] : List Nat).length = 1 ∧
     alookup (FolderSt.mk
        [(1, ⟨1, 5, [0], none⟩)] [(1, [42, 42, 42])] []).temps 1 =
        some [42, 42, 42] ∧
     (fun l : List Nat => l.length) [42, 42, 42] ≠ 99) ∧
    ((handle_end (fun l => l.length) (FolderSt.mk
        [(1, ⟨1, 5, [0], none⟩)] [(1, [42, 42, 42])] []) 1 "f.txt" 99).1 =
        Outcome.err TError.hashMismatch ∧
     (handle_end (fun l => l.length) (FolderSt.mk
        [(1, ⟨1, 5, [0], none⟩)] [(1, [42, 42, 42])] []) 1 "f.txt" 99).2.dest =
        (FolderSt.mk [(1, ⟨1, 5, [0], none⟩)] [(1, [42, 42, 42])] []).dest ∧
     alookup (handle_end (fun l => l.length) (FolderSt.mk
        [(1, ⟨1, 5, [0], none⟩)] [(1, [42, 42, 42])] []) 1 "f.txt" 99).2.temps 1 =
        none ∧
     alookup (handle_end (fun l => l.length) (FolderSt.mk
        [(1, ⟨1, 5, [0], none⟩)] [(1, [42, 42, 42])] []) 1 "f.txt" 99).2.states 1 =
        none) :=
  ⟨⟨by decide, by decide, by decide, by decide⟩,
    handle_end_hash_mismatch (fun l => l.length) _ 1 "f.txt" 99 ⟨1, 5, [0], none⟩
      [42, 42, 42] (by decide) (by decide) (by decide) (by decide)⟩

/-- C10: redelivering the same `Chunk` to a transfer that is still
incomplete after the first delivery returns `Ok` and leaves the folder
state — transfer states, temp files and destination tree — exactly as after
the single delivery; in particular a duplicate can never make an incomplete
transfer commit. -/
theorem handle_chunk_duplicate_idempotent (Hsh : List Nat → Nat)
    (fs : FolderSt) (id index : Nat) (data : List Nat)
    (st : TransferState) (bytes : List Nat)
    (hst : alookup fs.states id = some st)
    (htemp : alookup fs.temps id = some bytes)
    (hincomplete : (sinsert index st.received_chunks).length ≠ st.total_chunks) :
    (handle_chunk Hsh fs id index data).1 = Outcome.ok ∧
    handle_chunk Hsh (handle_chunk Hsh fs id index data).2 id index data =
      (Outcome.ok, (handle_chunk Hsh fs id index data).2) := by
  cases hpe : st.pending_end with
  | none =>
    simp only [handle_chunk, hst, htemp, hpe, hincomplete, if_false,
      alookup_ainsert_self, ainsert_ainsert_self, writeAt_writeAt_self,
      sinsert_eq_of_mem (sinsert_mem_self index st.received_chunks)]
    exact ⟨trivial, trivial⟩
  | some pe =>
    simp only [handle_chunk, hst, htemp, hpe, hincomplete, if_false,
      alookup_ainsert_self, ainsert_ainsert_self, writeAt_writeAt_self,
      sinsert_eq_of_mem (sinsert_mem_self index st.received_chunks)]
    exact ⟨trivial, trivial⟩

/-- Witness for the C10 theorem: duplicate delivery of chunk `0` of a
two-chunk transfer. -/
theorem handle_chunk_duplicate_idempotent_witness :
    (alookup (FolderSt.mk
        [(7, ⟨2, 2, [], none⟩)] [(7, [0, 0, 0])] []).states 7 =
        some ⟨2, 2, [], none⟩ ∧
     alookup (FolderSt.mk
        [(7, ⟨2, 2, [], none⟩)] [(7, [0, 0, 0])] []).temps 7 =
        some [0, 0, 0] ∧
     (sinsert 0 ([] : List Nat)).length ≠ (2 : Nat)) ∧
    ((handle_chunk (fun l => l.length) (FolderSt.mk
        [(7, ⟨2, 2, [], none⟩)] [(7, [0, 0, 0])] []) 7 0 [5, 6]).1 =
        Outcome.ok ∧
     handle_chunk (fun l => l.length)
        (handle_chunk (fun l => l.length) (FolderSt.mk
          [(7, ⟨2, 2, [], none⟩)] [(7, [0, 0, 0])] []) 7 0 [5, 6]).2 7 0 [5, 6] =
       (Outcome.ok,
        (handle_chunk (fun l => l.length) (FolderSt.mk
          [(7, ⟨2, 2, [], none⟩)] [(7, [0, 0, 0])] []) 7 0 [5, 6]).2)) :=
  ⟨⟨by decide, by decide, by decide⟩,
    handle_chunk_duplicate_idempotent (fun l => l.length) _ 7 0 [5, 6]
      ⟨2, 2, [], none⟩ [0, 0, 0] (by decide) (by decide) (by decide)⟩

/-! ## Broker state (`ServerState` in `ws/src/state.rs`)

User, computer and folder ids are `String`s (as in `backup_sync_protocol`);
socket addresses are abstracted to `Nat`. -/

/-- `Computer` from the protocol crate. -/
structure Computer where
  id : String
  name : String
  online : Bool
  deriving DecidableEq, Repr

/-- `SyncFolder` from the protocol crate (the broker's per-folder view). -/
structure SyncFolder where
  id : String
  name : String
  origin_computer : String
  backup_computers : List String
  is_synced : Bool
  pending_operations : Nat
  deriving DecidableEq, Repr

/-- `User` from the protocol crate. -/
structure User where
  id : String
  name : String
  computers : List Computer
  sync_folders : List SyncFolder
  deriving DecidableEq, Repr

/-- `ConnectedClient` (the `addr` field is the association key). -/
structure ConnectedClient where
  user_id : Option String
  computer_id : Option String
  deriving DecidableEq, Repr

/-- `ServerState` from `ws/src/state.rs`. -/
structure ServerState where
  users : List (String × User)
  connections : List (Nat × ConnectedClient)
  computer_connections : List ((String × String) × Nat)
  pending_operations : List (String × List (Nat × Nat))
  operation_counter : Nat
  deriving DecidableEq, Repr

/-- Apply `f` to the first list element satisfying `p` (the effect of
mutating through `iter_mut().find(..)`). -/
def updateFirst {α : Type} (p : α → Bool) (f : α → α) : List α → List α
  | [] => []
  | x :: xs => if p x then f x :: xs else x :: updateFirst p f xs

/-- Apply `f` to the value of the first entry with key `k` (the effect of
mutating through `HashMap::get_mut`). -/
def aupdate {α β : Type} [DecidableEq α] (k : α) (f : β → β) :
    List (α × β) → List (α × β)
  | [] => []
  | (k', v) :: rest =>
    if k' = k then (k', f v) :: rest else (k', v) :: aupdate k f rest

/-- `ServerState::get_user`. -/
def ServerState.get_user (s : ServerState) (uid : String) : Option User :=
  alookup s.users uid

/-- `ServerState::get_folder`: first folder with the given id in the
user's `sync_folders`. -/
def ServerState.get_folder (s : ServerState) (uid fid : String) :
    Option SyncFolder :=
  (s.get_user uid).bind fun u => u.sync_folders.find? fun f => f.id = fid

/-- The effect of `ServerState::get_folder_mut` followed by a mutation of
the found folder (no-op when user or folder is absent). -/
def ServerState.update_folder (s : ServerState) (uid fid : String)
    (g : SyncFolder → SyncFolder) : ServerState :=
  { s with users := aupdate uid
              (fun u => { u with
                sync_folders :=
                  updateFirst (fun f => f.id = fid) g u.sync_folders })
              s.users }

/-- `ServerState::is_folder_synced`. -/
def ServerState.is_folder_synced (s : ServerState) (uid fid : String) : Bool :=
  match s.get_folder uid fid with
  | some f => f.is_synced && f.pending_operations == 0
  | none => false

/-- `ServerState::is_origin`. -/
def ServerState.is_origin (s : ServerState) (uid fid cid : String) : Bool :=
  match s.get_folder uid fid with
  | some f => f.origin_computer == cid
  | none => false

/-- `ServerState::is_backup`. -/
def ServerState.is_backup (s : ServerState) (uid fid cid : String) : Bool :=
  match s.get_folder uid fid with
  | some f => f.backup_computers.contains cid
  | none => false

/-- The folder mutation performed by `ServerState::join_sync_folder`:
append the computer to `backup_computers` (if not already present) and mark
the folder not synced. -/
def joinFolderUpd (cid : String) (f : SyncFolder) : SyncFolder :=
  if cid ∈ f.backup_computers then f
  else { f with backup_computers := f.backup_computers ++ [cid], is_synced := false }

/-- `ServerState::join_sync_folder`, returning the updated state and the
cloned folder that the handler sends back. -/
def ServerState.join_sync_folder (s : ServerState) (uid fid cid : String) :
    ServerState × Option SyncFolder :=
  match s.get_folder uid fid with
  | none => (s, none)
  | some f =>
    (s.update_folder uid fid (joinFolderUpd cid), some (joinFolderUpd cid f))

/-- The folder mutation of `ServerState::leave_sync_folder` (`retain`). -/
def leaveFolderUpd (cid : String) (f : SyncFolder) : SyncFolder :=
  { f with backup_computers := f.backup_computers.filter fun c => c ≠ cid }

/-- `ServerState::leave_sync_folder`. -/
def ServerState.leave_sync_folder (s : ServerState) (uid fid cid : String) :
    ServerState :=
  s.update_folder uid fid (leaveFolderUpd cid)

/-- The three `&'static str` rejection reasons of `switch_origin`. -/
inductive SwitchErr where
  | notSynced
  | notBackup
  | notFound
  deriving DecidableEq, Repr

/-- The literal reason strings from `ws/src/state.rs`. -/
def switchErrReason : SwitchErr → String
  | .notSynced => "Folder has pending operations and is not fully synced"
  | .notBackup => "Only backup computers can request to become origin"
  | .notFound => "Folder not found"

/-- The folder mutation of a successful `switch_origin`: new origin set,
requester removed from the backups, old origin appended. -/
def switchFolderUpd (new_origin : String) (f : SyncFolder) : SyncFolder :=
  { f with
    origin_computer := new_origin
    backup_computers :=
      (f.backup_computers.filter fun c => c ≠ new_origin) ++ [f.origin_computer] }

/-- `ServerState::switch_origin` with its check order: synced first, then
backup membership, then the (unreachable after the first check) folder
lookup. -/
def ServerState.switch_origin (s : ServerState) (uid fid new_origin : String) :
    ServerState × Except SwitchErr Unit :=
  if s.is_folder_synced uid fid = false then (s, .error .notSynced)
  else if s.is_backup uid fid new_origin = false then (s, .error .notBackup)
  else
    match s.get_folder uid fid with
    | some _ => (s.update_folder uid fid (switchFolderUpd new_origin), .ok ())
    | none => (s, .error .notFound)

/-- The folder mutation of `increment_pending_operations`. -/
def incrementUpd (f : SyncFolder) : SyncFolder :=
  { f with pending_operations := f.pending_operations + 1, is_synced := false }

/-- `ServerState::increment_pending_operations`. -/
def ServerState.increment_pending_operations (s : ServerState)
    (uid fid : String) : ServerState :=
  s.update_folder uid fid incrementUpd

/-- `ServerState::get_backup_count`. -/
def ServerState.get_backup_count (s : ServerState) (uid fid : String) : Nat :=
  match s.get_folder uid fid with
  | some f => f.backup_computers.length
  | none => 0

/-- `ServerState::track_operation`:
`pending_operations.entry(folder_id).or_default().insert(op_id, backup_count)`. -/
def ServerState.track_operation (s : ServerState) (fid : String)
    (operation_id backup_count : Nat) : ServerState :=
  { s with pending_operations := ainsert fid
              (ainsert operation_id backup_count
                ((alookup s.pending_operations fid).getD []))
              s.pending_operations }

/-- `ServerState::next_operation_id`. -/
def ServerState.next_operation_id (s : ServerState) : ServerState × Nat :=
  ({ s with operation_counter := s.operation_counter + 1 },
    s.operation_counter + 1)

/-- `ServerState::create_sync_folder`. -/
def ServerState.create_sync_folder (s : ServerState) (uid : String)
    (folder : SyncFolder) : ServerState × Bool :=
  match alookup s.users uid with
  | some _ =>
    ({ s with users := aupdate uid
                (fun u => { u with sync_folders := u.sync_folders ++ [folder] })
                s.users }, true)
  | none => (s, false)

/-! ## Broker dispatch (`ws/src/handlers.rs`) -/

/-- The subset of `ServerMessage` produced by the modelled handlers. -/
inductive ServerMessage where
  | syncFolderCreated (folder : SyncFolder)
  | joinedSyncFolder (folder : SyncFolder)
  | leftSyncFolder (folder_id : String)
  | originSwitched (folder_id new_origin : String)
  | originSwitchDenied (folder_id reason : String)
  | operationComplete (operation_id : Nat)
  | errorMsg (message : String)
  deriving DecidableEq, Repr

/-- `handle_create_sync_folder`; `genId` stands for the
`format!("{}_{}", .., uuid_simple())` clock-generated folder id. -/
def handle_create_sync_folder (s : ServerState) (addr : Nat)
    (name genId : String) : ServerState × Option ServerMessage :=
  match alookup s.connections addr with
  | some ⟨some uid, some cid⟩ =>
    let folder : SyncFolder :=
      { id := genId, name := name, origin_computer := cid
        backup_computers := [], is_synced := true, pending_operations := 0 }
    ((s.create_sync_folder uid folder).1, some (.syncFolderCreated folder))
  | _ => (s, some (.errorMsg "Not authenticated with a computer"))

/-- `handle_join_sync_folder`. -/
def handle_join_sync_folder (s : ServerState) (addr : Nat) (fid : String) :
    ServerState × Option ServerMessage :=
  match alookup s.connections addr with
  | some ⟨some uid, some cid⟩ =>
    match s.join_sync_folder uid fid cid with
    | (s', some folder) => (s', some (.joinedSyncFolder folder))
    | (s', none) => (s', some (.errorMsg ("Folder " ++ fid ++ " not found")))
  | _ => (s, some (.errorMsg "Not authenticated with a computer"))

/-- `handle_leave_sync_folder`. -/
def handle_leave_sync_folder (s : ServerState) (addr : Nat) (fid : String) :
    ServerState × Option ServerMessage :=
  match alookup s.connections addr with
  | some ⟨some uid, some cid⟩ =>
    (s.leave_sync_folder uid fid cid, some (.leftSyncFolder fid))
  | _ => (s, some (.errorMsg "Not authenticated with a computer"))

/-- `handle_request_origin_switch`. -/
def handle_request_origin_switch (s : ServerState) (addr : Nat)
    (fid : String) : ServerState × Option ServerMessage :=
  match alookup s.connections addr with
  | some ⟨some uid, some cid⟩ =>
    match s.switch_origin uid fid cid with
    | (s', .ok _) => (s', some (.originSwitched fid cid))
    | (s', .error e) => (s', some (.originSwitchDenied fid (switchErrReason e)))
  | _ => (s, some (.errorMsg "Not authenticated with a computer"))

/-- `handle_folder_operation` (the broadcast fan-out happens outside the
state mutation and is not modelled). -/
def handle_folder_operation (s : ServerState) (addr : Nat) (fid : String) :
    ServerState × Option ServerMessage :=
  match alookup s.connections addr with
  | some ⟨some uid, some cid⟩ =>
    if s.is_origin uid fid cid = false then
      (s, some (.errorMsg "Only origin computer can send operations"))
    else
      let (s1, operation_id) := s.next_operation_id
      let s2 := s1.increment_pending_operations uid fid
      let backup_count := s2.get_backup_count uid fid
      let s3 := s2.track_operation fid operation_id backup_count
      (s3, some (.operationComplete operation_id))
  | _ => (s, some (.errorMsg "Not authenticated with a computer"))

/-- The `ClientMessage::Ack` arm of `handle_message`: it only logs and
returns `HandlerResponse::None`. -/
def handle_ack (s : ServerState) (_addr _operation_id : Nat) :
    ServerState × Option ServerMessage :=
  (s, none)

/-- The broker state transitions named by the invariant claims. -/
inductive BEvent where
  | createSyncFolder (addr : Nat) (name genId : String)
  | joinSyncFolder (addr : Nat) (folder_id : String)
  | leaveSyncFolder (addr : Nat) (folder_id : String)
  | requestOriginSwitch (addr : Nat) (folder_id : String)
  | folderOperation (addr : Nat) (folder_id : String)
  | ack (addr : Nat) (operation_id : Nat)
  deriving DecidableEq, Repr

/-- One step of `handle_message` for the modelled message variants. -/
def brokerStep (s : ServerState) : BEvent → ServerState × Option ServerMessage
  | .createSyncFolder addr name genId => handle_create_sync_folder s addr name genId
  | .joinSyncFolder addr fid => handle_join_sync_folder s addr fid
  | .leaveSyncFolder addr fid => handle_leave_sync_folder s addr fid
  | .requestOriginSwitch addr fid => handle_request_origin_switch s addr fid
  | .folderOperation addr fid => handle_folder_operation s addr fid
  | .ack addr op => handle_ack s addr op

/-- `is_synced ⇔ pending_operations = 0` for every folder of every user. -/
def syncedIffZero (s : ServerState) : Prop :=
  ∀ p ∈ s.users, ∀ f ∈ p.2.sync_folders,
    (f.is_synced = true ↔ f.pending_operations = 0)

/-- The forward half: `is_synced → pending_operations = 0`. -/
def syncedImpliesZero (s : ServerState) : Prop :=
  ∀ p ∈ s.users, ∀ f ∈ p.2.sync_folders,
    f.is_synced = true → f.pending_operations = 0

/-- `origin_computer ∉ backup_computers` for every folder of every user. -/
def originNotBackup (s : ServerState) : Prop :=
  ∀ p ∈ s.users, ∀ f ∈ p.2.sync_folders,
    f.origin_computer ∉ f.backup_computers

/-! ### Lemmas about `updateFirst` / `aupdate` -/

theorem mem_updateFirst {α : Type} (p : α → Bool) (g : α → α) (l : List α)
    (x : α) (hx : x ∈ updateFirst p g l) : x ∈ l ∨ ∃ y ∈ l, x = g y := by
  induction l with
  | nil => simp [updateFirst] at hx
  | cons a as ih =>
    by_cases h : p a
    · simp only [updateFirst, if_pos h, List.mem_cons] at hx
      rcases hx with rfl | hx
      · exact Or.inr ⟨a, by simp, rfl⟩
      · exact Or.inl (by simp [hx])
    · simp only [updateFirst, if_neg h, List.mem_cons] at hx
      rcases hx with rfl | hx
      · exact Or.inl (by simp)
      · rcases ih hx with h1 | ⟨y, hy, rfl⟩
        · exact Or.inl (by simp [h1])
        · exact Or.inr ⟨y, by simp [hy], rfl⟩

theorem mem_aupdate {α β : Type} [DecidableEq α] (k : α) (f : β → β)
    (l : List (α × β)) (x : α × β) (hx : x ∈ aupdate k f l) :
    x ∈ l ∨ ∃ y ∈ l, x = (y.1, f y.2) := by
  induction l with
  | nil => simp [aupdate] at hx
  | cons a as ih =>
    obtain ⟨k', v⟩ := a
    by_cases h : k' = k
    · simp only [aupdate, if_pos h, List.mem_cons] at hx
      rcases hx with rfl | hx
      · exact Or.inr ⟨(k', v), by simp, rfl⟩
      · exact Or.inl (by simp [hx])
    · simp only [aupdate, if_neg h, List.mem_cons] at hx
      rcases hx with rfl | hx
      · exact Or.inl (by simp)
      · rcases ih hx with h1 | ⟨y, hy, rfl⟩
        · exact Or.inl (by simp [h1])
        · exact Or.inr ⟨y, by simp [hy], rfl⟩

theorem alookup_aupdate_self {α β : Type} [DecidableEq α] (k : α) (f : β → β)
    (l : List (α × β)) : alookup (aupdate k f l) k = (alookup l k).map f := by
  induction l with
  | nil => simp [aupdate, alookup]
  | cons a as ih =>
    obtain ⟨k', v⟩ := a
    by_cases h : k' = k <;> simp [aupdate, alookup, h, ih]

theorem find?_updateFirst {α : Type} (p : α → Bool) (g : α → α)
    (hg : ∀ x, p (g x) = p x) (l : List α) :
    (updateFirst p g l).find? p = (l.find? p).map g := by
  induction l with
  | nil => simp [updateFirst]
  | cons a as ih =>
    by_cases h : p a
    · rw [updateFirst, if_pos h, List.find?_cons_of_pos _ (by rw [hg]; exact h),
        List.find?_cons_of_pos _ h]
      rfl
    · rw [updateFirst, if_neg h, List.find?_cons_of_neg _ (by simpa using h),
        List.find?_cons_of_neg _ (by simpa using h), ih]

/-- Per-folder predicates survive `update_folder` when the mutation
preserves them. -/
theorem update_folder_preserves (P : SyncFolder → Prop) (s : ServerState)
    (uid fid : String) (g : SyncFolder → SyncFolder)
    (hg : ∀ f, P f → P (g f))
    (hs : ∀ p ∈ s.users, ∀ f ∈ p.2.sync_folders, P f) :
    ∀ p ∈ (s.update_folder uid fid g).users, ∀ f ∈ p.2.sync_folders, P f := by
  intro p hp f hf
  rcases mem_aupdate _ _ _ _ hp with hp' | ⟨y, hy, rfl⟩
  · exact hs p hp' f hf
  · rcases mem_updateFirst _ _ _ _ hf with hf' | ⟨z, hz, rfl⟩
    · exact hs y hy f hf'
    · exact hg z (hs y hy z hz)

theorem get_folder_update_folder (s : ServerState) (uid fid : String)
    (g : SyncFolder → SyncFolder) (hg : ∀ f, (g f).id = f.id) :
    (s.update_folder uid fid g).get_folder uid fid =
      (s.get_folder uid fid).map g := by
  unfold ServerState.get_folder ServerState.get_user ServerState.update_folder
  simp only
  rw [alookup_aupdate_self]
  cases alookup s.users uid with
  | none => rfl
  | some u =>
    exact find?_updateFirst _ _ (fun f => by simp [hg]) _

/-! ### Claim theorems for the broker -/

/-- C6: the broker's `Ack` handler is a no-op — it neither decrements any
remaining-ack row of `pending_operations` nor touches the folder's
`pending_operations` counter or `is_synced` flag; the entire broker state is
returned unchanged (and no response is sent). -/
theorem ack_leaves_broker_state_unchanged (s : ServerState)
    (addr operation_id : Nat) :
    brokerStep s (BEvent.ack addr operation_id) = (s, none) := rfl

/-- Example broker state for the C4 counterexample: one user with two
computers, one fully synced folder (`origin = comp1`, no backups,
`pending_operations = 0`), and `comp2` authenticated on connection `0`. -/
def exStateC4 : ServerState :=
  { users := [("user1",
      { id := "user1", name := "user1"
        computers := [⟨"comp1", "Computer 1", true⟩, ⟨"comp2", "Computer 2", true⟩]
        sync_folders := [⟨"folder1", "Folder 1", "comp1", [], true, 0⟩] })]
    connections := [(0, ⟨some "user1", some "comp2"⟩)]
    computer_connections := []
    pending_operations := []
    operation_counter := 0 }

/-- C4 (counterexample): `is_synced ⇔ pending_operations = 0` holds before
but not after `comp2`'s `JoinSyncFolder`: the join sets `is_synced := false`
while `pending_operations` stays `0`. -/
theorem join_breaks_synced_iff_zero :
    syncedIffZero exStateC4 ∧
    ¬ syncedIffZero (brokerStep exStateC4 (BEvent.joinSyncFolder 0 "folder1")).1 := by
  unfold syncedIffZero
  decide

/-- C4 (amended): every listed broker transition preserves the forward
implication `is_synced → pending_operations = 0` for every folder (the
converse direction is broken by `JoinSyncFolder`). -/
theorem brokerStep_preserves_synced_implies_zero (s : ServerState)
    (e : BEvent) (h : syncedImpliesZero s) :
    syncedImpliesZero (brokerStep s e).1 := by
  have himp : ∀ g : SyncFolder → SyncFolder,
      (∀ f : SyncFolder, ((g f).is_synced = f.is_synced ∧
          (g f).pending_operations = f.pending_operations) ∨
        (g f).is_synced = false) →
      ∀ uid fid, syncedImpliesZero (s.update_folder uid fid g) := by
    intro g hgood uid fid
    refine update_folder_preserves _ s uid fid g (fun f hf => ?_) h
    rcases hgood f with ⟨h1, h2⟩ | h1
    · intro hsy
      rw [h2]
      exact hf (h1 ▸ hsy)
    · intro hsy
      rw [h1] at hsy
      cases hsy
  cases e with
  | createSyncFolder addr name genId =>
    simp only [brokerStep, handle_create_sync_folder]
    cases hc : alookup s.connections addr with
    | none => exact h
    | some c =>
      obtain ⟨ouid, ocid⟩ := c
      cases ouid with
      | none => cases ocid <;> exact h
      | some uid =>
        cases ocid with
        | none => exact h
        | some cid =>
          simp only [ServerState.create_sync_folder]
          cases hu : alookup s.users uid with
          | none => exact h
          | some u =>
            intro p hp f hf
            rcases mem_aupdate _ _ _ _ hp with hp' | ⟨y, hy, rfl⟩
            · exact h p hp' f hf
            · simp only [List.mem_append, List.mem_singleton] at hf
              rcases hf with hf' | rfl
              · exact h y hy f hf'
              · intro _; rfl
  | joinSyncFolder addr fid =>
    simp only [brokerStep, handle_join_sync_folder]
    cases hc : alookup s.connections addr with
    | none => exact h
    | some c =>
      obtain ⟨ouid, ocid⟩ := c
      cases ouid with
      | none => cases ocid <;> exact h
      | some uid =>
        cases ocid with
        | none => exact h
        | some cid =>
          simp only [ServerState.join_sync_folder]
          cases hfo : s.get_folder uid fid with
          | none => exact h
          | some f =>
            refine himp (joinFolderUpd cid) (fun f' => ?_) uid fid
            unfold joinFolderUpd
            by_cases hmem : cid ∈ f'.backup_computers
            · simp [hmem]
            · simp [hmem]
  | leaveSyncFolder addr fid =>
    simp only [brokerStep, handle_leave_sync_folder]
    cases hc : alookup s.connections addr with
    | none => exact h
    | some c =>
      obtain ⟨ouid, ocid⟩ := c
      cases ouid with
      | none => cases ocid <;> exact h
      | some uid =>
        cases ocid with
        | none => exact h
        | some cid =>
          exact himp (leaveFolderUpd cid) (fun f' => Or.inl ⟨rfl, rfl⟩) uid fid
  | requestOriginSwitch addr fid =>
    simp only [brokerStep, handle_request_origin_switch]
    cases hc : alookup s.connections addr with
    | none => exact h
    | some c =>
      obtain ⟨ouid, ocid⟩ := c
      cases ouid with
      | none => cases ocid <;> exact h
      | some uid =>
        cases ocid with
        | none => exact h
        | some cid =>
          simp only [ServerState.switch_origin]
          by_cases h1 : s.is_folder_synced uid fid = false
          · simp only [if_pos h1]; exact h
          · simp only [if_neg h1]
            by_cases h2 : s.is_backup uid fid cid = false
            · simp only [if_pos h2]; exact h
            · simp only [if_neg h2]
              cases hfo : s.get_folder uid fid with
              | none => exact h
              | some f =>
                exact himp (switchFolderUpd cid) (fun f' => Or.inl ⟨rfl, rfl⟩) uid fid
  | folderOperation addr fid =>
    simp only [brokerStep, handle_folder_operation]
    cases hc : alookup s.connections addr with
    | none => exact h
    | some c =>
      obtain ⟨ouid, ocid⟩ := c
      cases ouid with
      | none => cases ocid <;> exact h
      | some uid =>
        cases ocid with
        | none => exact h
        | some cid =>
          by_cases ho : s.is_origin uid fid cid = false
          · simp only [if_pos ho]; exact h
          · simp only [if_neg ho]
            simp only [ServerState.next_operation_id,
              ServerState.increment_pending_operations, ServerState.track_operation]
            have hbump : syncedImpliesZero
                { s with operation_counter := s.operation_counter + 1 } := h
            have h2 := update_folder_preserves
              (fun f => f.is_synced = true → f.pending_operations = 0)
              { s with operation_counter := s.operation_counter + 1 } uid fid
              incrementUpd (fun f _ hsy => by cases hsy) hbump
            exact fun p hp f hf => h2 p hp f hf
  | ack addr op => exact h

/-- Example broker state for the C5 theorem: `comp1` is the origin of
`folder1` and is authenticated on connection `0`. -/
def exStateC5 : ServerState :=
  { users := [("user1",
      { id := "user1", name := "user1"
        computers := [⟨"comp1", "Computer 1", true⟩]
        sync_folders := [⟨"folder1", "Folder 1", "comp1", [], true, 0⟩] })]
    connections := [(0, ⟨some "user1", some "comp1"⟩)]
    computer_connections := []
    pending_operations := []
    operation_counter := 0 }

/-- C5: `handle_join_sync_folder` does not check the requester against
`origin_computer`, so a `JoinSyncFolder` issued by the folder's origin
appends the origin to `backup_computers`, violating
`origin_computer ∉ backup_computers`. -/
theorem join_by_origin_violates_origin_not_backup :
    originNotBackup exStateC5 ∧
    ¬ originNotBackup (brokerStep exStateC5 (BEvent.joinSyncFolder 0 "folder1")).1 := by
  unfold originNotBackup
  decide

/-- Witness for the C4 amended theorem: the implication invariant holds
before and after `comp2`'s join on the example state. -/
theorem brokerStep_preserves_synced_implies_zero_witness :
    syncedImpliesZero exStateC4 ∧
    syncedImpliesZero (brokerStep exStateC4 (BEvent.joinSyncFolder 0 "folder1")).1 :=
  ⟨by unfold syncedImpliesZero; decide,
    brokerStep_preserves_synced_implies_zero exStateC4
      (BEvent.joinSyncFolder 0 "folder1")
      (by unfold syncedImpliesZero; decide)⟩

/-- C3: for a `RequestOriginSwitch` from a connection authenticated as
`(uid, cid)` on a folder that exists: if `cid` is a current backup and the
folder is synced with zero pending operations, the reply is
`OriginSwitched` and the folder now has `origin_computer = cid` with the old
origin appended to the backups and `cid` removed from them; otherwise the
reply is `OriginSwitchDenied` with the not-synced reason when the folder is
not quiesced and the not-a-backup reason otherwise, and the broker state is
completely unchanged. -/
theorem handle_request_origin_switch_spec (s : ServerState) (addr : Nat)
    (uid cid fid : String) (f : SyncFolder)
    (hconn : alookup s.connections addr = some ⟨some uid, some cid⟩)
    (hf : s.get_folder uid fid = some f) :
    (cid ∈ f.backup_computers ∧ f.is_synced = true ∧ f.pending_operations = 0 →
      (handle_request_origin_switch s addr fid).2 =
        some (ServerMessage.originSwitched fid cid) ∧
      (handle_request_origin_switch s addr fid).1.get_folder uid fid =
        some { f with
          origin_computer := cid
          backup_computers :=
            (f.backup_computers.filter fun c => c ≠ cid) ++ [f.origin_computer] }) ∧
    (¬ (cid ∈ f.backup_computers ∧ f.is_synced = true ∧ f.pending_operations = 0) →
      (handle_request_origin_switch s addr fid).2 =
        some (ServerMessage.originSwitchDenied fid
          (if f.is_synced = true ∧ f.pending_operations = 0 then
            switchErrReason SwitchErr.notBackup
          else
            switchErrReason SwitchErr.notSynced)) ∧
      (handle_request_origin_switch s addr fid).1 = s) := by
  have hsyncEq : s.is_folder_synced uid fid =
      (f.is_synced && f.pending_operations == 0) := by
    simp [ServerState.is_folder_synced, hf]
  have hbEq : s.is_backup uid fid cid = f.backup_computers.contains cid := by
    simp [ServerState.is_backup, hf]
  by_cases hq : f.is_synced = true ∧ f.pending_operations = 0
  · have hsync : s.is_folder_synced uid fid = true := by
      rw [hsyncEq, hq.1]
      simp [hq.2]
    by_cases hb : cid ∈ f.backup_computers
    · have hback : s.is_backup uid fid cid = true := by simp [hbEq, hb]
      constructor
      · intro _
        have hupd := get_folder_update_folder s uid fid (switchFolderUpd cid)
          (fun f' => rfl)
        constructor
        · simp [handle_request_origin_switch, hconn, ServerState.switch_origin,
            hsync, hback, hf]
        · simp only [handle_request_origin_switch, hconn,
            ServerState.switch_origin, hsync, hback, hf]
          simp only [Bool.true_eq_false, if_false]
          rw [hupd, hf]
          rfl
      · intro hcon
        exact absurd ⟨hb, hq⟩ hcon
    · have hback : s.is_backup uid fid cid = false := by simp [hbEq, hb]
      constructor
      · intro hcon
        exact absurd hcon.1 hb
      · intro _
        constructor
        · simp [handle_request_origin_switch, hconn, ServerState.switch_origin,
            hsync, hback, hq]
        · simp [handle_request_origin_switch, hconn, ServerState.switch_origin,
            hsync, hback]
  · have hsync : s.is_folder_synced uid fid = false := by
      rw [hsyncEq]
      rcases Decidable.not_and_iff_or_not.mp hq with h1 | h1
      · simp [Bool.eq_false_iff.mpr h1]
      · simp only [Bool.and_eq_false_iff]
        exact Or.inr (by simpa using h1)
    constructor
    · intro hcon
      exact absurd ⟨hcon.2.1, hcon.2.2⟩ hq
    · intro _
      constructor
      · simp [handle_request_origin_switch, hconn, ServerState.switch_origin,
          hsync, hq]
      · simp [handle_request_origin_switch, hconn, ServerState.switch_origin,
          hsync]

/-- Example broker state for the C3 witness: spec scenario 5, an unsynced
folder with five pending operations and `comp2` (a backup) authenticated on
connection `0`. -/
def exStateC3 : ServerState :=
  { users := [("user1",
      { id := "user1", name := "user1"
        computers := [⟨"comp1", "Computer 1", true⟩, ⟨"comp2", "Computer 2", true⟩]
        sync_folders := [⟨"folder1", "Folder 1", "comp1", ["comp2"], false, 5⟩] })]
    connections := [(0, ⟨some "user1", some "comp2"⟩)]
    computer_connections := []
    pending_operations := []
    operation_counter := 0 }

/-- Witness for the C3 theorem: on `exStateC3` the request is denied with
the not-fully-synced reason and the state is unchanged. -/
theorem handle_request_origin_switch_spec_witness :
    (alookup exStateC3.connections 0 = some ⟨some "user1", some "comp2"⟩ ∧
     exStateC3.get_folder "user1" "folder1" =
       some ⟨"folder1", "Folder 1", "comp1", ["comp2"], false, 5⟩) ∧
    (("comp2" ∈ (["comp2"] : List String) ∧ false = true ∧ (5 : Nat) = 0 →
      (handle_request_origin_switch exStateC3 0 "folder1").2 =
        some (ServerMessage.originSwitched "folder1" "comp2") ∧
      (handle_request_origin_switch exStateC3 0 "folder1").1.get_folder
          "user1" "folder1" =
        some { (⟨"folder1", "Folder 1", "comp1", ["comp2"], false, 5⟩ : SyncFolder) with
          origin_computer := "comp2"
          backup_computers :=
            ((["comp2"] : List String).filter fun c => c ≠ "comp2") ++ ["comp1"] }) ∧
     (¬ ("comp2" ∈ (["comp2"] : List String) ∧ false = true ∧ (5 : Nat) = 0) →
      (handle_request_origin_switch exStateC3 0 "folder1").2 =
        some (ServerMessage.originSwitchDenied "folder1"
          (if false = true ∧ (5 : Nat) = 0 then
            switchErrReason SwitchErr.notBackup
          else
            switchErrReason SwitchErr.notSynced)) ∧
      (handle_request_origin_switch exStateC3 0 "folder1").1 = exStateC3)) :=
  ⟨⟨by decide, by decide⟩,
    handle_request_origin_switch_spec exStateC3 0 "user1" "comp2" "folder1"
      ⟨"folder1", "Folder 1", "comp1", ["comp2"], false, 5⟩
      (by decide) (by decide)⟩

/-! ## `RelativePath::new` (`agent/src/models/relative_path.rs`)

Strings are modelled as `List Char`; `str::len` is the UTF-8 byte length.
The `unicode_normalization` NFC pass is an external library call and is a
parameter of `relativePathNew`; `nfcModel` below implements it concretely
for the characters this development uses. -/

instance {ε α : Type} [DecidableEq ε] [DecidableEq α] :
    DecidableEq (Except ε α) := fun x y =>
  match x, y with
  | .ok a, .ok b =>
    if h : a = b then .isTrue (congrArg Except.ok h)
    else .isFalse fun hc => h (Except.ok.inj hc)
  | .error e, .error f =>
    if h : e = f then .isTrue (congrArg Except.error h)
    else .isFalse fun hc => h (Except.error.inj hc)
  | .ok _, .error _ => .isFalse fun hc => Except.noConfusion hc
  | .error _, .ok _ => .isFalse fun hc => Except.noConfusion hc

/-- `RelativePathError`. -/
inductive RPError where
  | empty
  | absolute (p : List Char)
  | parentTraversal
  | invalidCharacters
  | tooLong (max got : Nat)
  deriving DecidableEq, Repr

/-- UTF-8 byte count of one scalar value (what `str::len` sums). -/
def utf8Size (c : Char) : Nat :=
  if c.toNat < 0x80 then 1
  else if c.toNat < 0x800 then 2
  else if c.toNat < 0x10000 then 3
  else 4

/-- `str::len` in bytes. -/
def byteLen (l : List Char) : Nat := (l.map utf8Size).sum

/-- Rust `char::is_control` (Unicode category `Cc`). -/
def isControlChar (c : Char) : Bool :=
  c.toNat < 0x20 || (0x7F ≤ c.toNat && c.toNat ≤ 0x9F)

/-- `str::split('/')`. -/
def splitOnSlash : List Char → List (List Char)
  | [] => [[]]
  | c :: rest =>
    match splitOnSlash rest with
    | [] => [[]]
    | cur :: rs => if c = '/' then [] :: cur :: rs else (c :: cur) :: rs

/-- `Vec::join("/")`. -/
def joinSlash (cs : List (List Char)) : List Char :=
  (cs.intersperse ['/']).flatten

/-- The part of `RelativePath::new` after the NFC pass: backslash
normalization, absolute-path check, control-character check, component
cleaning and re-joining. -/
def relativePathPost (p : List Char) : Except RPError (List Char) :=
  let normalized := p.map fun c => if c = '\\' then '/' else c
  if normalized.head? = some '/' ∨ normalized[1]? = some ':' then
    .error (.absolute p)
  else if normalized.any fun c =>
      (c == Char.ofNat 0) || (isControlChar c && !(c == '\t')) then
    .error .invalidCharacters
  else
    let comps := splitOnSlash normalized
    if comps.any fun c => c == ['.', '.'] then .error .parentTraversal
    else
      let clean := comps.filter fun c => !(c == []) && !(c == ['.'])
      if clean = [] then .error .empty
      else .ok (joinSlash clean)

/-- `RelativePath::new`: the emptiness and byte-length checks run on the
raw input, before the NFC pass. -/
def relativePathNew (nfc : List Char → List Char) (path : List Char) :
    Except RPError (List Char) :=
  if path = [] then .error .empty
  else if byteLen path > 4096 then .error (.tooLong 4096 (byteLen path))
  else relativePathPost (nfc path)

/-- Models the `unicode_normalization` crate's NFC on strings over the
characters used in this development: `e` (U+0065) followed by a combining
acute accent (U+0301) composes to `é` (U+00E9); everything else passes
through. -/
def nfcModel : List Char → List Char
  | [] => []
  | [c] => [c]
  | c :: c2 :: rest =>
    if c = 'e' ∧ c2 = Char.ofNat 0x301 then Char.ofNat 0xE9 :: nfcModel rest
    else c :: nfcModel (c2 :: rest)

/-- The NFD spelling of 1366 copies of `é`: 4098 UTF-8 bytes. -/
def nfdLong : List Char := (List.replicate 1366 ['e', Char.ofNat 0x301]).flatten

/-- The NFC spelling of the same string: 2732 UTF-8 bytes. -/
def nfcLong : List Char := List.replicate 1366 (Char.ofNat 0xE9)

theorem byteLen_cons (c : Char) (l : List Char) :
    byteLen (c :: l) = utf8Size c + byteLen l := by
  simp [byteLen]

theorem nfcModel_flatten_rep (n : Nat) :
    nfcModel ((List.replicate n ['e', Char.ofNat 0x301]).flatten) =
      List.replicate n (Char.ofNat 0xE9) := by
  induction n with
  | zero => rfl
  | succ k ih =>
    simp only [List.replicate_succ, List.flatten_cons, List.cons_append,
      List.nil_append]
    have hstep : nfcModel ('e' :: Char.ofNat 0x301 ::
        (List.replicate k ['e', Char.ofNat 0x301]).flatten) =
        Char.ofNat 0xE9 ::
          nfcModel ((List.replicate k ['e', Char.ofNat 0x301]).flatten) := by
      simp [nfcModel]
    rw [hstep, ih]

theorem byteLen_flatten_rep (n : Nat) :
    byteLen ((List.replicate n ['e', Char.ofNat 0x301]).flatten) = 3 * n := by
  induction n with
  | zero => rfl
  | succ k ih =>
    simp only [List.replicate_succ, List.flatten_cons, List.cons_append,
      List.nil_append]
    rw [byteLen_cons, byteLen_cons, ih]
    have h1 : utf8Size 'e' = 1 := by decide
    have h2 : utf8Size (Char.ofNat 0x301) = 2 := by decide
    rw [h1, h2]
    omega

theorem byteLen_rep_e9 (n : Nat) :
    byteLen (List.replicate n (Char.ofNat 0xE9)) = 2 * n := by
  induction n with
  | zero => rfl
  | succ k ih =>
    rw [List.replicate_succ .., byteLen_cons, ih]
    have h1 : utf8Size (Char.ofNat 0xE9) = 2 := by decide
    rw [h1]
    omega

theorem nfcModel_no_e (l : List Char) (h : 'e' ∉ l) : nfcModel l = l := by
  induction l with
  | nil => rfl
  | cons c rest ih =>
    cases rest with
    | nil => rfl
    | cons c2 rest2 =>
      have hc : ¬ (c = 'e' ∧ c2 = Char.ofNat 0x301) := by
        rintro ⟨rfl, -⟩
        exact h (List.mem_cons_self ..)
      rw [nfcModel, if_neg hc, ih fun hm => h (List.mem_cons_of_mem _ hm)]

theorem splitOnSlash_no_slash (l : List Char) (h : '/' ∉ l) :
    splitOnSlash l = [l] := by
  induction l with
  | nil => rfl
  | cons c rest ih =>
    have hc : ¬ c = '/' := fun hc => h (hc ▸ List.mem_cons_self ..)
    rw [splitOnSlash, ih fun hm => h (List.mem_cons_of_mem _ hm)]
    simp [hc]

/-- `relativePathPost` on a string with no separators, no drive colon, no
control characters and no special single component is the identity. -/
theorem relativePathPost_no_special (l : List Char)
    (hbs : '\\' ∉ l) (hsl : '/' ∉ l) (hcol : ':' ∉ l)
    (hctl : ∀ c ∈ l, ¬ ((c == Char.ofNat 0) ||
      (isControlChar c && !(c == '\t'))) = true)
    (hne : l ≠ []) (hdot : l ≠ ['.']) (hdd : l ≠ ['.', '.']) :
    relativePathPost l = .ok l := by
  have hmap : (l.map fun c => if c = '\\' then '/' else c) = l := by
    have hid : ∀ c ∈ l, (if c = '\\' then '/' else c) = c := by
      intro c hc
      rw [if_neg]
      intro hc'
      exact hbs (hc' ▸ hc)
    rw [List.map_congr_left hid, List.map_id']
  have habs : ¬ (l.head? = some '/' ∨ l[1]? = some ':') := by
    rintro (hh | hh)
    · rw [List.head?_eq_getElem?] at hh
      exact hsl (List.getElem?_mem hh)
    · exact hcol (List.getElem?_mem hh)
  have hany : (l.any fun c =>
      (c == Char.ofNat 0) || (isControlChar c && !(c == '\t'))) = false := by
    rw [List.any_eq_false]
    exact hctl
  have hsplit : splitOnSlash l = [l] := splitOnSlash_no_slash l hsl
  have hdd' : (l == ['.', '.']) = false := by
    simpa [beq_eq_false_iff_ne] using hdd
  have hne' : (l == []) = false := by
    simpa [beq_eq_false_iff_ne] using hne
  have hdot' : (l == ['.']) = false := by
    simpa [beq_eq_false_iff_ne] using hdot
  simp only [relativePathPost, hmap, habs, if_false, hany, Bool.false_eq_true,
    hsplit]
  simp [hdd', hne', hdot', joinSlash, hne, hdot]

/-- C8 (counterexample): `nfdLong` and `nfcLong` are the NFD and NFC forms
of one Unicode string, yet `RelativePath::new` rejects the NFD form as
`TooLong` (its 4098-byte length is checked before normalization) while
accepting the NFC form — so NFD and NFC inputs do not always produce equal
results. -/
theorem relativePathNew_nfd_nfc_differ :
    nfcModel nfdLong = nfcLong ∧
    relativePathNew nfcModel nfdLong = .error (.tooLong 4096 4098) ∧
    relativePathNew nfcModel nfcLong = .ok nfcLong := by
  have h1 : nfcModel nfdLong = nfcLong := nfcModel_flatten_rep 1366
  have hbd : byteLen nfdLong = 4098 := by
    unfold nfdLong
    rw [byteLen_flatten_rep 1366]
  have hbc : byteLen nfcLong = 2732 := by
    unfold nfcLong
    rw [byteLen_rep_e9 1366]
  have hnd : ¬ nfdLong = [] := by
    intro h
    rw [h] at hbd
    simp [byteLen] at hbd
  have hnc : ¬ nfcLong = [] := by
    intro h
    rw [h] at hbc
    simp [byteLen] at hbc
  have he9 : ∀ c ∈ nfcLong, c = Char.ofNat 0xE9 :=
    fun c hc => List.eq_of_mem_replicate hc
  refine ⟨h1, ?_, ?_⟩
  · rw [relativePathNew, if_neg hnd, hbd, if_pos (by omega)]
  · rw [relativePathNew, if_neg hnc, hbc, if_neg (by omega)]
    rw [nfcModel_no_e nfcLong fun hm => by cases he9 _ hm]
    have hlen : nfcLong.length = 1366 := List.length_replicate ..
    rw [relativePathPost_no_special nfcLong]
    · exact fun hm => by cases he9 _ hm
    · exact fun hm => by cases he9 _ hm
    · exact fun hm => by cases he9 _ hm
    · intro c hc
      rw [he9 _ hc]
      decide
    · exact hnc
    · intro h
      rw [h] at hlen
      simp at hlen
    · intro h
      rw [h] at hlen
      simp at hlen

/-- C8 (amended): any two spellings of the same string — in particular its
NFD and NFC forms — are mapped to equal results by `RelativePath::new`,
provided both already pass the raw-input checks: both empty or both
nonempty, and both at most 4096 bytes long before normalization. -/
theorem relativePathNew_norm_eq (nfc : List Char → List Char)
    (s t : List Char) (hnfc : nfc s = nfc t) (hempty : s = [] ↔ t = [])
    (hs : byteLen s ≤ 4096) (ht : byteLen t ≤ 4096) :
    relativePathNew nfc s = relativePathNew nfc t := by
  by_cases h0 : s = []
  · have h1 : t = [] := hempty.mp h0
    simp [relativePathNew, h0, h1]
  · have h1 : ¬ t = [] := fun ht0 => h0 (hempty.mpr ht0)
    have hs' : ¬ byteLen s > 4096 := by omega
    have ht' : ¬ byteLen t > 4096 := by omega
    simp [relativePathNew, h0, h1, hs', ht', hnfc]

/-- Witness for the amended C8 theorem: `cafe` + combining accent (NFD)
and `café` (NFC) normalize alike and both map to `.ok "café"`. -/
theorem relativePathNew_norm_eq_witness :
    (nfcModel ['c', 'a', 'f', 'e', Char.ofNat 0x301] =
       nfcModel ['c', 'a', 'f', Char.ofNat 0xE9] ∧
     (['c', 'a', 'f', 'e', Char.ofNat 0x301] = ([] : List Char) ↔
       ['c', 'a', 'f', Char.ofNat 0xE9] = ([] : List Char)) ∧
     byteLen ['c', 'a', 'f', 'e', Char.ofNat 0x301] ≤ 4096 ∧
     byteLen ['c', 'a', 'f', Char.ofNat 0xE9] ≤ 4096) ∧
    relativePathNew nfcModel ['c', 'a', 'f', 'e', Char.ofNat 0x301] =
      relativePathNew nfcModel ['c', 'a', 'f', Char.ofNat 0xE9] :=
  ⟨⟨by decide, by decide, by decide, by decide⟩,
    relativePathNew_norm_eq nfcModel _ _ (by decide) (by decide)
      (by decide) (by decide)⟩

/-! ## Local syncer: the extra-in-backup pass (`synchronizer.rs`)

Native paths are component lists.  The backup side is a pair of the on-disk
tree (path → is-directory) and the in-memory `FolderStructure` entries
(path → `FileEntry::is_dir()`).  `sync_extra_in_backup` iterates the
`backup_relatives` map in the order given by the list parameter (a
`HashMap`'s iteration order is arbitrary). -/

/-- A native path, as a list of components. -/
abbrev FsPath := List String

/-- The backup tree on disk plus the `FolderStructure::entries` map. -/
structure BackupSt where
  disk : List (FsPath × Bool)
  entries : List (FsPath × Bool)
  deriving DecidableEq, Repr

/-- Failure modes of the pass: a failed `fs::remove_file` /
`fs::remove_dir_all` (e.g. `NotFound`), or the `.unwrap()` panic on a
missing entries record. -/
inductive SyncErr where
  | ioErr
  | crashUnwrap
  deriving DecidableEq, Repr

/-- `fs::remove_dir_all`: fails when the path is absent or not a
directory; otherwise removes the whole subtree. -/
def remove_dir_all (disk : List (FsPath × Bool)) (p : FsPath) :
    Except SyncErr (List (FsPath × Bool)) :=
  match alookup disk p with
  | some true => .ok (disk.filter fun q => !(p.isPrefixOf q.1))
  | some false => .error .ioErr
  | none => .error .ioErr

/-- `fs::remove_file`: fails when the path is absent or a directory. -/
def remove_file (disk : List (FsPath × Bool)) (p : FsPath) :
    Except SyncErr (List (FsPath × Bool)) :=
  match alookup disk p with
  | some false => .ok (aremove p disk)
  | some true => .error .ioErr
  | none => .error .ioErr

/-- The `for (relative, backup_path) in backup_relatives` loop body of
`sync_extra_in_backup`. -/
def extraLoop (original_relatives : List FsPath) :
    List (FsPath × FsPath) → BackupSt → Except SyncErr BackupSt
  | [], st => .ok st
  | (rel, bpath) :: rest, st =>
    if rel ∈ original_relatives then extraLoop original_relatives rest st
    else
      match alookup st.entries bpath with
      | none => .error .crashUnwrap
      | some d =>
        match (if d then remove_dir_all st.disk bpath
               else remove_file st.disk bpath) with
        | .error e => .error e
        | .ok disk' =>
          extraLoop original_relatives rest
            { disk := disk', entries := aremove bpath st.entries }

/-- `Synchronizer::sync_extra_in_backup`: returns immediately when
`when_missing_preserve_backup` is set. -/
def sync_extra_in_backup (when_missing_preserve_backup : Bool)
    (original_relatives : List FsPath)
    (backup_relatives : List (FsPath × FsPath)) (st : BackupSt) :
    Except SyncErr BackupSt :=
  if when_missing_preserve_backup then .ok st
  else extraLoop original_relatives backup_relatives st

/-- The C9 example backup tree: root `b` containing a backup-only
directory `d` with a file `d/f`, and a separate backup-only file `g`. -/
def exStC9 : BackupSt :=
  ⟨[(["b"], true), (["b", "d"], true), (["b", "d", "f"], false), (["b", "g"], false)],
   [(["b"], true), (["b", "d"], true), (["b", "d", "f"], false), (["b", "g"], false)]⟩

/-- The backup-relatives iteration for `exStC9`, visiting the directory
`d` before its child `d/f` (a legal `HashMap` order). -/
def exRelsC9 : List (FsPath × FsPath) :=
  [([], ["b"]), (["d"], ["b", "d"]), (["d", "f"], ["b", "d", "f"]),
   (["g"], ["b", "g"])]

/-- C9: with `when_missing_preserve_backup` set the pass returns the state
untouched (frame half of the claim); without it, on a backup-only directory
iterated before its own child, `remove_dir_all` deletes the child from disk
and the subsequent `fs::remove_file` on that child fails with `NotFound`,
aborting the pass — the later backup-only file `g` is never deleted, against
the claim that every backup-only path is deleted. -/
theorem sync_extra_in_backup_nested_dir_aborts :
    sync_extra_in_backup true [[]] exRelsC9 exStC9 = .ok exStC9 ∧
    sync_extra_in_backup false [[]] exRelsC9 exStC9 = .error .ioErr := by
  constructor <;> decide

/-! ## The chunked-transfer scenario of C1

A transfer of `content` in chunks of `cs` bytes: `tcOf` is the
`total_chunks` computed by `handle_start`, `window content cs i` the bytes
carried by `Chunk{index = i}`, and `overlay content cs rc` the temp file
after exactly the chunks in `rc` have been written over the preallocated
zeros. -/

/-- `⌈ts / cs⌉` as computed by `u64::div_ceil` for `cs > 0`. -/
def tcOf (ts cs : Nat) : Nat := (ts + cs - 1) / cs

/-- The byte window of chunk `i`: `content[i*cs ..< min ((i+1)*cs) ts]`. -/
def window (content : List Nat) (cs i : Nat) : List Nat :=
  (content.drop (i * cs)).take cs

/-- The temp file contents after receiving exactly the chunks in `rc`. -/
def overlay (content : List Nat) (cs : Nat) (rc : List Nat) : List Nat :=
  (List.range content.length).map fun j =>
    if j / cs ∈ rc then content.getD j 0 else 0

theorem mul_lt_of_lt_tcOf {ts cs i : Nat} (hcs : 0 < cs)
    (hi : i < tcOf ts cs) : i * cs < ts := by
  unfold tcOf at hi
  have h1 : i + 1 ≤ (ts + cs - 1) / cs := hi
  rw [Nat.le_div_iff_mul_le hcs] at h1
  have h2 : (i + 1) * cs = i * cs + cs := Nat.succ_mul ..
  omega

theorem le_tcOf_mul {ts cs : Nat} (hcs : 0 < cs) : ts ≤ cs * tcOf ts cs := by
  unfold tcOf
  have hdm := Nat.div_add_mod (ts + cs - 1) cs
  have hmod := Nat.mod_lt (ts + cs - 1) hcs
  omega

theorem div_eq_iff_window {j cs i : Nat} (hcs : 0 < cs) :
    j / cs = i ↔ i * cs ≤ j ∧ j < i * cs + cs := by
  constructor
  · rintro rfl
    have hdm := Nat.div_add_mod j cs
    have hmod := Nat.mod_lt j hcs
    have h2 : (j / cs) * cs = cs * (j / cs) := Nat.mul_comm ..
    omega
  · rintro ⟨h1, h2⟩
    exact Nat.div_eq_of_lt_le h1 (by rw [Nat.succ_mul]; omega)

theorem length_window (content : List Nat) (cs i : Nat) :
    (window content cs i).length = min cs (content.length - i * cs) := by
  simp [window]

theorem getD_window (content : List Nat) (cs i k : Nat) (hk : k < cs) :
    (window content cs i).getD k 0 = content.getD (i * cs + k) 0 := by
  simp [window, List.getD_eq_getElem?_getD, List.getElem?_take, hk,
    List.getElem?_drop]

theorem length_overlay (content : List Nat) (cs : Nat) (rc : List Nat) :
    (overlay content cs rc).length = content.length := by
  simp [overlay]

theorem overlay_nil (content : List Nat) (cs : Nat) :
    overlay content cs [] = List.replicate content.length 0 := by
  apply List.ext_getElem
  · simp [overlay]
  · intro j h1 h2
    simp [overlay]

theorem overlay_complete (content : List Nat) (cs : Nat) (rc : List Nat)
    (hcs : 0 < cs) (hall : ∀ i < tcOf content.length cs, i ∈ rc) :
    overlay content cs rc = content := by
  apply List.ext_getElem
  · simp [overlay]
  · intro j h1 h2
    have hjts : j < content.length := h2
    have hdivlt : j / cs < tcOf content.length cs := by
      rw [Nat.div_lt_iff_lt_mul hcs]
      calc j < content.length := hjts
        _ ≤ cs * tcOf content.length cs := le_tcOf_mul hcs
        _ = tcOf content.length cs * cs := Nat.mul_comm ..
    simp only [overlay, List.getElem_map, List.getElem_range]
    rw [if_pos (hall _ hdivlt)]
    exact List.getD_eq_getElem content 0 hjts

theorem writeAt_overlay (content : List Nat) (cs : Nat) (rc : List Nat)
    (i : Nat) (hcs : 0 < cs) (hi : i < tcOf content.length cs) :
    writeAt (overlay content cs rc) (i * cs) (window content cs i) =
      overlay content cs (sinsert i rc) := by
  have hlti : i * cs < content.length := mul_lt_of_lt_tcOf hcs hi
  have hwin := length_window content cs i
  have hofflen : i * cs + (window content cs i).length ≤ content.length := by
    rw [hwin]; omega
  rw [writeAt, length_overlay]
  have hmax : max content.length (i * cs + (window content cs i).length) =
      content.length := by omega
  rw [hmax]
  unfold overlay
  refine List.map_congr_left ?_
  intro j hj
  rw [List.mem_range] at hj
  by_cases hwd : i * cs ≤ j ∧ j < i * cs + (window content cs i).length
  · rw [if_pos hwd]
    have hk : j - i * cs < cs := by rw [hwin] at hwd; omega
    rw [getD_window content cs i _ hk]
    have hji : i * cs + (j - i * cs) = j := by omega
    rw [hji]
    have hdiv : j / cs = i := by
      rw [div_eq_iff_window hcs]
      rw [hwin] at hwd
      omega
    rw [hdiv]
    rw [if_pos (sinsert_mem_self i rc)]
  · rw [if_neg hwd]
    have hdivne : ¬ j / cs = i := by
      intro hdiv
      rw [div_eq_iff_window hcs] at hdiv
      rw [hwin] at hwd
      omega
    rw [getD_map_range, if_pos hj]
    by_cases hrc : j / cs ∈ rc
    · rw [if_pos hrc, if_pos ((mem_sinsert ..).mpr (Or.inr hrc))]
    · rw [if_neg hrc, if_neg fun hmem => ?_]
      rcases (mem_sinsert ..).mp hmem with h | h
      · exact hdivne h
      · exact hrc h

theorem length_eq_iff_all_mem {rc : List Nat} {n : Nat} (hnd : rc.Nodup)
    (hlt : ∀ x ∈ rc, x < n) : rc.length = n ↔ ∀ i < n, i ∈ rc := by
  have hsub : rc.toFinset ⊆ Finset.range n := by
    intro x hx
    rw [List.mem_toFinset] at hx
    rw [Finset.mem_range]
    exact hlt x hx
  constructor
  · intro hlen i hi
    have hcard : rc.toFinset.card = n := by
      rw [List.toFinset_card_of_nodup hnd, hlen]
    have heq : rc.toFinset = Finset.range n :=
      Finset.eq_of_subset_of_card_le hsub (by rw [hcard, Finset.card_range])
    have : i ∈ rc.toFinset := by
      rw [heq, Finset.mem_range]
      exact hi
    exact List.mem_toFinset.mp this
  · intro hall
    have hsup : Finset.range n ⊆ rc.toFinset := fun i hi =>
      List.mem_toFinset.mpr (hall i (Finset.mem_range.mp hi))
    have heq : rc.toFinset = Finset.range n :=
      Finset.Subset.antisymm hsub hsup
    rw [← List.toFinset_card_of_nodup hnd, heq, Finset.card_range]

theorem tcOf_step {ts cs : Nat} (hcs : 0 < cs) (hts : 0 < ts) :
    tcOf ts cs = tcOf (ts - cs) cs + 1 := by
  unfold tcOf
  by_cases hle : ts ≤ cs
  · have h1 : ts - cs = 0 := by omega
    rw [h1]
    have h2 : (0 + cs - 1) / cs = 0 := Nat.div_eq_of_lt (by omega)
    have h3 : (ts + cs - 1) / cs = 1 :=
      Nat.div_eq_of_lt_le (by omega) (by rw [Nat.succ_mul]; omega)
    rw [h2, h3]
  · have h1 : ts + cs - 1 = (ts - cs + cs - 1) + cs := by omega
    rw [h1, Nat.add_div_right _ hcs]

theorem flatten_windows_aux (cs : Nat) (hcs : 0 < cs) :
    ∀ (n : Nat) (content : List Nat), content.length ≤ n →
      ((List.range (tcOf content.length cs)).map (window content cs)).flatten =
        content := by
  intro n
  induction n with
  | zero =>
    intro content hlen
    have h0 : content = [] := List.length_eq_zero.mp (by omega)
    subst h0
    have htc : tcOf 0 cs = 0 := Nat.div_eq_of_lt (by omega)
    simp [htc]
  | succ k ih =>
    intro content hlen
    by_cases h0 : content = []
    · subst h0
      have htc : tcOf 0 cs = 0 := Nat.div_eq_of_lt (by omega)
      simp [htc]
    · have hts : 0 < content.length := List.length_pos.mpr h0
      have htc : tcOf content.length cs =
          tcOf ((content.drop cs).length) cs + 1 := by
        rw [List.length_drop]
        exact tcOf_step hcs hts
      rw [htc, List.range_succ_eq_map, List.map_cons, List.flatten_cons]
      have hw0 : window content cs 0 = content.take cs := by
        simp [window]
      have hcomp : ∀ i, (window content cs ∘ Nat.succ) i =
          window (content.drop cs) cs i := by
        intro i
        simp only [Function.comp_apply, window, List.drop_drop]
        have hidx : cs + i * cs = Nat.succ i * cs := by
          rw [Nat.succ_mul]
          omega
        rw [hidx]
      have hdrop : (content.drop cs).length ≤ k := by
        rw [List.length_drop]
        omega
      rw [hw0, List.map_map, funext hcomp, ih (content.drop cs) hdrop]
      exact List.take_append_drop cs content

/-- The chunks of `content`, concatenated in index order, are `content`. -/
theorem flatten_windows (content : List Nat) (cs : Nat) (hcs : 0 < cs) :
    ((List.range (tcOf content.length cs)).map (window content cs)).flatten =
      content :=
  flatten_windows_aux cs hcs content.length content (Nat.le_refl _)

/-- The `Chunk` messages of the transfer, one per index. -/
def chunkOps (id : Nat) (content : List Nat) (cs : Nat) :
    List ChunkedTransferOp :=
  (List.range (tcOf content.length cs)).map fun i =>
    ChunkedTransferOp.chunk id i (window content cs i)

/-- All messages that follow `Start`: the `End` announcing `Hsh content`
plus every `Chunk`; they may be processed in any interleaving. -/
def transferMsgs (Hsh : List Nat → Nat) (id : Nat) (path : String)
    (content : List Nat) (cs : Nat) : List ChunkedTransferOp :=
  ChunkedTransferOp.endOp id path (Hsh content) :: chunkOps id content cs

/-- The commit condition after the messages `q` have been processed: the
`End` and every `Chunk` are among them. -/
def allMsgsIn (Hsh : List Nat → Nat) (id : Nat) (path : String)
    (content : List Nat) (cs : Nat) (q : List ChunkedTransferOp) : Prop :=
  ChunkedTransferOp.endOp id path (Hsh content) ∈ q ∧
    ∀ i < tcOf content.length cs,
      ChunkedTransferOp.chunk id i (window content cs i) ∈ q

/-- The folder-state invariant of one in-flight transfer, indexed by the
post-`Start` messages `q` processed so far: before the commit condition the
destination does not exist and the transfer state mirrors exactly the
chunks and the pending `End` seen in `q`; once the commit condition holds
the destination carries `content` and the volatile state is gone. -/
def transferInv (Hsh : List Nat → Nat) (id : Nat) (path : String)
    (content : List Nat) (cs : Nat) (q : List ChunkedTransferOp)
    (s : FolderSt) : Prop :=
  (¬ allMsgsIn Hsh id path content cs q →
    alookup s.dest path = none ∧
    ∃ rc : List Nat,
      rc.Nodup ∧
      (∀ x ∈ rc, x < tcOf content.length cs) ∧
      (∀ j, j ∈ rc ↔
        ChunkedTransferOp.chunk id j (window content cs j) ∈ q) ∧
      alookup s.states id = some
        { total_chunks := tcOf content.length cs
          chunk_size := cs
          received_chunks := rc
          pending_end :=
            if ChunkedTransferOp.endOp id path (Hsh content) ∈ q then
              some { path := path, hash := Hsh content }
            else none } ∧
      alookup s.temps id = some (overlay content cs rc)) ∧
  (allMsgsIn Hsh id path content cs q →
    alookup s.dest path = some content ∧
    alookup s.states id = none ∧
    alookup s.temps id = none)

theorem transferInv_after_start (Hsh : List Nat → Nat) (id : Nat)
    (path : String) (content : List Nat) (cs : Nat) (hcs : 0 < cs)
    (fs0 : FolderSt) (hdest : alookup fs0.dest path = none) :
    transferInv Hsh id path content cs []
      (process_chunked_transfer Hsh fs0
        (ChunkedTransferOp.start id content.length cs)).2 := by
  have hcs0 : ¬ cs = 0 := by omega
  constructor
  · intro _
    refine ⟨?_, [], List.nodup_nil, by simp, by simp, ?_, ?_⟩
    · simpa [process_chunked_transfer, handle_start, hcs0] using hdest
    · simp [process_chunked_transfer, handle_start, hcs0,
        alookup_ainsert_self, tcOf]
    · simp [process_chunked_transfer, handle_start, hcs0,
        alookup_ainsert_self, overlay_nil]
  · intro hdone
    rcases hdone with ⟨hend, -⟩
    simp at hend

theorem transferInv_step (Hsh : List Nat → Nat) (id : Nat) (path : String)
    (content : List Nat) (cs : Nat) (hcs : 0 < cs)
    (hts : content.length < U64)
    (q : List ChunkedTransferOp) (s : FolderSt) (a : ChunkedTransferOp)
    (ha : a ∈ transferMsgs Hsh id path content cs)
    (hinv : transferInv Hsh id path content cs q s) :
    transferInv Hsh id path content cs (q ++ [a])
      (process_chunked_transfer Hsh s a).2 := by
  have hcases : a = ChunkedTransferOp.endOp id path (Hsh content) ∨
      ∃ i, i < tcOf content.length cs ∧
        a = ChunkedTransferOp.chunk id i (window content cs i) := by
    rcases List.mem_cons.mp ha with h | h
    · exact Or.inl h
    · obtain ⟨i, hi, heq⟩ := List.mem_map.mp h
      exact Or.inr ⟨i, List.mem_range.mp hi, heq.symm⟩
  by_cases hdone : allMsgsIn Hsh id path content cs q
  · obtain ⟨hdest, hstates, htemps⟩ := hinv.2 hdone
    have hmono : allMsgsIn Hsh id path content cs (q ++ [a]) :=
      ⟨List.mem_append_left _ hdone.1,
        fun i hi => List.mem_append_left _ (hdone.2 i hi)⟩
    have hstate_eq : (process_chunked_transfer Hsh s a).2 = s := by
      rcases hcases with rfl | ⟨i, hi, rfl⟩
      · simp [process_chunked_transfer, handle_end, hstates]
      · simp [process_chunked_transfer, handle_chunk, hstates]
    rw [hstate_eq]
    exact ⟨fun hcon => absurd hmono hcon, fun _ => ⟨hdest, hstates, htemps⟩⟩
  · obtain ⟨hdest, rc, hnd, hlt, hmem, hst, htemp⟩ := hinv.1 hdone
    rcases hcases with rfl | ⟨i, hi, rfl⟩
    · -- processing the End message
      by_cases hcompl : rc.length = tcOf content.length cs
      · -- every chunk already received: commit
        have hall : ∀ i < tcOf content.length cs, i ∈ rc :=
          (length_eq_iff_all_mem hnd hlt).mp hcompl
        have hallq : ∀ i < tcOf content.length cs,
            ChunkedTransferOp.chunk id i (window content cs i) ∈ q :=
          fun i h => (hmem i).mp (hall i h)
        have hover : overlay content cs rc = content :=
          overlay_complete _ _ _ hcs hall
        have hres : process_chunked_transfer Hsh s
            (ChunkedTransferOp.endOp id path (Hsh content)) =
            (Outcome.ok, ⟨aremove id s.states, aremove id s.temps,
              ainsert path content s.dest⟩) := by
          simp [process_chunked_transfer, handle_end, hst, hcompl,
            handle_end_internal, htemp, hover]
        rw [hres]
        constructor
        · intro hcon
          exact absurd ⟨List.mem_append_right _ (by simp),
            fun i h => List.mem_append_left _ (hallq i h)⟩ hcon
        · intro _
          exact ⟨alookup_ainsert_self .., alookup_aremove_self ..,
            alookup_aremove_self ..⟩
      · -- chunks missing: store the pending End
        have hres : process_chunked_transfer Hsh s
            (ChunkedTransferOp.endOp id path (Hsh content)) =
            (Outcome.ok,
              ⟨ainsert id ⟨tcOf content.length cs, cs, rc,
                  some ⟨path, Hsh content⟩⟩ s.states,
                s.temps, s.dest⟩) := by
          simp [process_chunked_transfer, handle_end, hst, hcompl]
        rw [hres]
        have hnotall : ¬ allMsgsIn Hsh id path content cs
            (q ++ [ChunkedTransferOp.endOp id path (Hsh content)]) := by
          rintro ⟨-, hchunks⟩
          apply hcompl
          rw [length_eq_iff_all_mem hnd hlt]
          intro i h
          rcases List.mem_append.mp (hchunks i h) with hin | hin
          · exact (hmem i).mpr hin
          · simp at hin
        constructor
        · intro _
          refine ⟨hdest, rc, hnd, hlt, ?_, ?_, htemp⟩
          · intro j
            rw [hmem j]
            constructor
            · exact fun h => List.mem_append_left _ h
            · intro h
              rcases List.mem_append.mp h with h | h
              · exact h
              · simp at h
          · rw [alookup_ainsert_self]
            simp
        · intro hcon
          exact absurd hcon hnotall
    · -- processing chunk i
      have hoffmod : i * cs % U64 = i * cs :=
        Nat.mod_eq_of_lt (Nat.lt_trans (mul_lt_of_lt_tcOf hcs hi) hts)
      have hwrite : writeAt (overlay content cs rc) (i * cs)
          (window content cs i) = overlay content cs (sinsert i rc) :=
        writeAt_overlay content cs rc i hcs hi
      have hnd' : (sinsert i rc).Nodup := nodup_sinsert i rc hnd
      have hlt' : ∀ x ∈ sinsert i rc, x < tcOf content.length cs := by
        intro x hx
        rcases (mem_sinsert ..).mp hx with rfl | hx
        · exact hi
        · exact hlt x hx
      have hmem' : ∀ j, j ∈ sinsert i rc ↔
          ChunkedTransferOp.chunk id j (window content cs j) ∈
            q ++ [ChunkedTransferOp.chunk id i (window content cs i)] := by
        intro j
        rw [mem_sinsert, List.mem_append, hmem j]
        constructor
        · rintro (rfl | h)
          · exact Or.inr (by simp)
          · exact Or.inl h
        · rintro (h | h)
          · exact Or.inr h
          · simp only [List.mem_singleton, ChunkedTransferOp.chunk.injEq] at h
            exact Or.inl h.2.1
      by_cases hpe : ChunkedTransferOp.endOp id path (Hsh content) ∈ q
      · -- a pending End is stored
        by_cases hcompl2 : (sinsert i rc).length = tcOf content.length cs
        · -- this was the last missing chunk: commit
          have hall2 : ∀ j < tcOf content.length cs, j ∈ sinsert i rc :=
            (length_eq_iff_all_mem hnd' hlt').mp hcompl2
          have hover2 : overlay content cs (sinsert i rc) = content :=
            overlay_complete _ _ _ hcs hall2
          have hres : process_chunked_transfer Hsh s
              (ChunkedTransferOp.chunk id i (window content cs i)) =
              (Outcome.ok,
                ⟨aremove id (ainsert id ⟨tcOf content.length cs, cs,
                    sinsert i rc, some ⟨path, Hsh content⟩⟩ s.states),
                  aremove id (ainsert id (overlay content cs (sinsert i rc))
                    s.temps),
                  ainsert path content s.dest⟩) := by
            simp [process_chunked_transfer, handle_chunk, hst, htemp, hpe,
              hoffmod, hwrite, hcompl2, handle_end_internal,
              alookup_ainsert_self, hover2]
          rw [hres]
          have hmono2 : allMsgsIn Hsh id path content cs
              (q ++ [ChunkedTransferOp.chunk id i (window content cs i)]) := by
            refine ⟨List.mem_append_left _ hpe, fun j hj => ?_⟩
            exact (hmem' j).mp (hall2 j hj)
          constructor
          · intro hcon
            exact absurd hmono2 hcon
          · intro _
            exact ⟨alookup_ainsert_self .., alookup_aremove_self ..,
              alookup_aremove_self ..⟩
        · -- still incomplete: just record the chunk
          have hres : process_chunked_transfer Hsh s
              (ChunkedTransferOp.chunk id i (window content cs i)) =
              (Outcome.ok,
                ⟨ainsert id ⟨tcOf content.length cs, cs, sinsert i rc,
                    some ⟨path, Hsh content⟩⟩ s.states,
                  ainsert id (overlay content cs (sinsert i rc)) s.temps,
                  s.dest⟩) := by
            simp [process_chunked_transfer, handle_chunk, hst, htemp, hpe,
              hoffmod, hwrite, hcompl2]
          rw [hres]
          have hnotall : ¬ allMsgsIn Hsh id path content cs
              (q ++ [ChunkedTransferOp.chunk id i (window content cs i)]) := by
            rintro ⟨-, hchunks⟩
            apply hcompl2
            rw [length_eq_iff_all_mem hnd' hlt']
            intro j hj
            exact (hmem' j).mpr (hchunks j hj)
          constructor
          · intro _
            refine ⟨hdest, sinsert i rc, hnd', hlt', hmem', ?_, ?_⟩
            · rw [alookup_ainsert_self]
              simp [List.mem_append_left _ hpe]
            · exact alookup_ainsert_self ..
          · intro hcon
            exact absurd hcon hnotall
      · -- no pending End yet
        have hres : process_chunked_transfer Hsh s
            (ChunkedTransferOp.chunk id i (window content cs i)) =
            (Outcome.ok,
              ⟨ainsert id ⟨tcOf content.length cs, cs, sinsert i rc,
                  none⟩ s.states,
                ainsert id (overlay content cs (sinsert i rc)) s.temps,
                s.dest⟩) := by
          simp [process_chunked_transfer, handle_chunk, hst, htemp, hpe,
            hoffmod, hwrite]
        rw [hres]
        have hnotall : ¬ allMsgsIn Hsh id path content cs
            (q ++ [ChunkedTransferOp.chunk id i (window content cs i)]) := by
          rintro ⟨hend, -⟩
          rcases List.mem_append.mp hend with h | h
          · exact hpe h
          · simp at h
        constructor
        · intro _
          refine ⟨hdest, sinsert i rc, hnd', hlt', hmem', ?_, ?_⟩
          · rw [alookup_ainsert_self]
            have hnotin : ¬ ChunkedTransferOp.endOp id path (Hsh content) ∈
                q ++ [ChunkedTransferOp.chunk id i (window content cs i)] := by
              intro h
              rcases List.mem_append.mp h with h | h
              · exact hpe h
              · simp at h
            simp [hnotin]
          · exact alookup_ainsert_self ..
        · intro hcon
          exact absurd hcon hnotall

theorem transferInv_run (Hsh : List Nat → Nat) (id : Nat) (path : String)
    (content : List Nat) (cs : Nat) (hcs : 0 < cs)
    (hts : content.length < U64) (r : List ChunkedTransferOp)
    (hsub : ∀ a ∈ r, a ∈ transferMsgs Hsh id path content cs) :
    ∀ (q : List ChunkedTransferOp) (s : FolderSt),
      transferInv Hsh id path content cs q s →
      transferInv Hsh id path content cs (q ++ r) (runOps Hsh s r) := by
  induction r with
  | nil =>
    intro q s h
    simpa [runOps] using h
  | cons a r' ih =>
    intro q s h
    have hstep := transferInv_step Hsh id path content cs hcs hts q s a
      (hsub a (by simp)) h
    have hrec := ih (fun b hb => hsub b (by simp [hb])) (q ++ [a]) _ hstep
    have hasc : q ++ a :: r' = (q ++ [a]) ++ r' := by simp
    rw [hasc]
    simpa [runOps] using hrec

/-- C1: for a chunked transfer of `content` (one `Start`, then the `End`
announcing `Hsh content` and the `Chunk`s carrying the windows of
`content`, interleaved in any order), after any processed prefix the
destination exists exactly when the `End` and every `Chunk` have been
processed — in particular not while any chunk is missing, even with the
`End` already seen — and after the full sequence the destination holds the
chunks concatenated in index order, whose hash is the announced one. -/
theorem chunked_transfer_commit_spec (Hsh : List Nat → Nat) (fs0 : FolderSt)
    (id : Nat) (path : String) (content : List Nat) (cs : Nat)
    (hcs : 0 < cs) (hts : content.length < U64)
    (rest p : List ChunkedTransferOp)
    (hperm : rest.Perm (transferMsgs Hsh id path content cs))
    (hdest : alookup fs0.dest path = none)
    (hpre : ∃ q, p ++ q =
      ChunkedTransferOp.start id content.length cs :: rest) :
    ((alookup (runOps Hsh fs0 p).dest path).isSome = true ↔
      (ChunkedTransferOp.endOp id path (Hsh content) ∈ p ∧
       ∀ i < tcOf content.length cs,
         ChunkedTransferOp.chunk id i (window content cs i) ∈ p)) ∧
    (p = ChunkedTransferOp.start id content.length cs :: rest →
      alookup (runOps Hsh fs0 p).dest path =
        some ((List.range (tcOf content.length cs)).map
          (window content cs)).flatten ∧
      Hsh ((List.range (tcOf content.length cs)).map
        (window content cs)).flatten = Hsh content) := by
  obtain ⟨qrest, hq⟩ := hpre
  cases p with
  | nil =>
    constructor
    · simp [runOps, hdest]
    · intro h
      simp at h
  | cons p0 p' =>
    rw [List.cons_append] at hq
    injection hq with hp0 hq'
    subst hp0
    have hsub : ∀ a ∈ p', a ∈ transferMsgs Hsh id path content cs := by
      intro a hmem
      have : a ∈ rest := by
        rw [← hq']
        exact List.mem_append_left _ hmem
      exact hperm.mem_iff.mp this
    have hinv0 := transferInv_after_start Hsh id path content cs hcs fs0 hdest
    have hinv := transferInv_run Hsh id path content cs hcs hts p' hsub [] _
      hinv0
    rw [List.nil_append] at hinv
    have hrunsplit : runOps Hsh fs0
        (ChunkedTransferOp.start id content.length cs :: p') =
        runOps Hsh (process_chunked_transfer Hsh fs0
          (ChunkedTransferOp.start id content.length cs)).2 p' := by
      simp [runOps]
    rw [hrunsplit]
    constructor
    · by_cases hB : allMsgsIn Hsh id path content cs p'
      · obtain ⟨hd, -, -⟩ := hinv.2 hB
        rw [hd]
        simp only [Option.isSome_some, true_iff]
        exact ⟨List.mem_cons_of_mem _ hB.1,
          fun i hi => List.mem_cons_of_mem _ (hB.2 i hi)⟩
      · obtain ⟨hd, -⟩ := hinv.1 hB
        rw [hd]
        simp only [Option.isSome_none, Bool.false_eq_true, false_iff]
        rintro ⟨hend, hchunks⟩
        apply hB
        constructor
        · rcases List.mem_cons.mp hend with h | h
          · exact absurd h (by simp)
          · exact h
        · intro i hi
          rcases List.mem_cons.mp (hchunks i hi) with h | h
          · exact absurd h (by simp)
          · exact h
    · intro hfull
      injection hfull with heq hp'
      subst hp'
      have hBall : allMsgsIn Hsh id path content cs p' := by
        constructor
        · exact hperm.mem_iff.mpr (by simp [transferMsgs])
        · intro i hi
          refine hperm.mem_iff.mpr ?_
          rw [transferMsgs]
          refine List.mem_cons_of_mem _ ?_
          exact List.mem_map.mpr ⟨i, List.mem_range.mpr hi, rfl⟩
      obtain ⟨hd, -, -⟩ := hinv.2 hBall
      rw [hd, flatten_windows content cs hcs]
      exact ⟨rfl, rfl⟩

/-- The C1 witness transfer: content `[10, 20, 30]`, chunk size `2`, the
length function as hash model. -/
def exC1content : List Nat := [10, 20, 30]

/-- The post-`Start` messages of the C1 witness: last chunk first, then the
early `End`, then the first chunk. -/
def exC1rest : List ChunkedTransferOp :=
  [ChunkedTransferOp.chunk 9 1 (window exC1content 2 1),
   ChunkedTransferOp.endOp 9 "out.txt" exC1content.length,
   ChunkedTransferOp.chunk 9 0 (window exC1content 2 0)]

/-- The full processed sequence of the C1 witness. -/
def exC1p : List ChunkedTransferOp :=
  ChunkedTransferOp.start 9 exC1content.length 2 :: exC1rest

/-- Witness for the C1 theorem at the concrete reversed-order transfer. -/
theorem chunked_transfer_commit_spec_witness :
    (0 < 2 ∧ exC1content.length < U64 ∧
     exC1rest.Perm
       (transferMsgs (fun l => l.length) 9 "out.txt" exC1content 2) ∧
     alookup (FolderSt.mk [] [] []).dest "out.txt" = none ∧
     (∃ q, exC1p ++ q =
       ChunkedTransferOp.start 9 exC1content.length 2 :: exC1rest)) ∧
    (((alookup (runOps (fun l => l.length) (FolderSt.mk [] [] [])
          exC1p).dest "out.txt").isSome = true ↔
       (ChunkedTransferOp.endOp 9 "out.txt"
          ((fun l : List Nat => l.length) exC1content) ∈ exC1p ∧
        ∀ i < tcOf exC1content.length 2,
          ChunkedTransferOp.chunk 9 i (window exC1content 2 i) ∈ exC1p)) ∧
     (exC1p = ChunkedTransferOp.start 9 exC1content.length 2 :: exC1rest →
       alookup (runOps (fun l => l.length) (FolderSt.mk [] [] [])
          exC1p).dest "out.txt" =
         some ((List.range (tcOf exC1content.length 2)).map
           (window exC1content 2)).flatten ∧
       (fun l : List Nat => l.length)
           ((List.range (tcOf exC1content.length 2)).map
             (window exC1content 2)).flatten =
         (fun l : List Nat => l.length) exC1content)) :=
  ⟨⟨by decide, by decide, by decide, rfl, ⟨[], rfl⟩⟩,
    chunked_transfer_commit_spec (fun l => l.length) (FolderSt.mk [] [] [])
      9 "out.txt" exC1content 2 (by decide) (by decide) exC1rest exC1p
      (by decide) rfl ⟨[], rfl⟩⟩

end BackupSync
